import Mathlib

/-!
Verification of the text-processing core of the Shellfast repository,
embedded from src/cpp/filesystem/filesystem.cpp. The functions modelled
here are cmp_impl, sort_impl, diff_impl, comm_impl, cut_impl, join_impl
and grep_impl, together with the helpers they use (read_lines produces
the line lists that all of them consume; lines are modelled as Lean
strings and bytes as Lean characters, one byte per character).
-/

namespace Shellfast

/-- The C function isspace in the default locale: space and the control
characters 9 to 13 (tab, newline, vertical tab, form feed, carriage
return). Used by stream extraction and by wc. -/
def isCppSpace (c : Char) : Bool := c = ' ' || (9 ≤ c.toNat && c.toNat ≤ 13)

/-- Concatenation of a list of strings, the accumulation performed by the
ostringstream objects in the C++ code. -/
def strConcat : List String → String
  | [] => ""
  | s :: r => s ++ strConcat r

/-- Result record of cmp_impl: the identical flag and the 1-based byte
offset and line number it reports on a difference. When identical is
true the two counters are the final internal values of the loop, which
cmp_impl does not put into its result dictionary. -/
structure CmpResult where
  identical : Bool
  byteOffset : Nat
  lineNumber : Nat
deriving Repr, DecidableEq

/-- The byte comparison loop of cmp_impl. The C++ loop condition is
ifs1.get(c1) && ifs2.get(c2): when the first stream still has a byte but
the second is exhausted, that byte of the first stream is consumed by the
failed condition; the final check ifs1.get(c1) || ifs2.get(c2) then looks
at the remaining bytes only. Inside the body the offset is incremented and
the line counter is incremented on a newline in the first stream before
the bytes are compared. -/
def cmpGo : List Char → List Char → Nat → Nat → CmpResult
  | c1 :: r1, c2 :: r2, off, ln =>
    let off2 := off + 1
    let ln2 := if c1 = '\n' then ln + 1 else ln
    if c1 ≠ c2 then ⟨false, off2, ln2⟩
    else cmpGo r1 r2 off2 ln2
  | [], c2 :: r2, off, ln =>
    -- first stream failed in the loop condition, second still has c2 :: r2;
    -- the final check reads that byte and reports a difference
    let _ := c2
    let _ := r2
    ⟨false, off + 1, ln⟩
  | c1 :: r1, [], off, ln =>
    -- the loop condition consumed c1 from the first stream before the
    -- second stream reported failure; the final check only sees r1
    let _ := c1
    match r1 with
    | [] => ⟨true, off, ln⟩
    | _ :: _ => ⟨false, off + 1, ln⟩
  | [], [], off, ln => ⟨true, off, ln⟩

/-- cmp_impl on the byte contents of the two files. -/
def cmp_impl (bytes1 bytes2 : List Char) : CmpResult := cmpGo bytes1 bytes2 0 1

/-- C9: cmp_impl violates the claim that identical is true exactly when the
two byte sequences are equal. When the first file is the second file plus
exactly one extra byte, the loop condition swallows the extra byte and the
function answers identical, although the files differ. Here file1 is the
two bytes a b and file2 is the single byte a. -/
theorem cmp_one_extra_byte_reported_identical :
    (cmp_impl ['a', 'b'] ['a']).identical = true ∧ ['a', 'b'] ≠ ['a'] := by
  decide

/-- The tokenisation loop of cut_impl: while (std::getline(lss, token, sep))
tokens.push_back(token). getline fails only when the stream is already
exhausted, so a line that ends in the delimiter does not produce a final
empty token, and an empty line produces no token at all. The accumulator
cur holds the characters of the current token in reverse. -/
def getlineSplitAux (sep : Char) : List Char → List Char → List (List Char)
  | cur, [] => [cur.reverse]
  | cur, c :: cs =>
    if c = sep then
      cur.reverse :: (match cs with
        | [] => []
        | d :: ds => getlineSplitAux sep [] (d :: ds))
    else getlineSplitAux sep (c :: cur) cs

/-- Splitting a line at a delimiter character the way the getline loop of
cut_impl does. -/
def getlineSplit (sep : Char) (cs : List Char) : List (List Char) :=
  match cs with
  | [] => []
  | c :: cs2 => getlineSplitAux sep [] (c :: cs2)

/-- The token list cut_impl builds for one line. -/
def cutTokens (sep : Char) (line : String) : List String :=
  (getlineSplit sep line.toList).map String.mk

/-- The emission loop of cut_impl for one line: for every selected index f,
in the order the index set iterates, the token tokens[f-1] is emitted when
1 <= f <= tokens.size(), preceded by the delimiter unless it is the first
emitted token; an index outside that range emits nothing at all. -/
def cutEmit (sep : Char) (toks : List String) : List Int → Bool → String
  | [], _ => ""
  | f :: fs, first =>
    if 1 ≤ f ∧ f ≤ (toks.length : Int) then
      (if first then "" else String.singleton sep) ++ toks.getD (f - 1).toNat ""
        ++ cutEmit sep toks fs false
    else cutEmit sep toks fs first

/-- The output row cut_impl produces for one line. The field set is given
as the list of selected indices in the order the std::set of the code
iterates them, that is ascending and without duplicates. -/
def cutLine (sep : Char) (fields : List Int) (line : String) : String :=
  cutEmit sep (cutTokens sep line) fields true

/-- cut_impl over the lines of the file: one output row per input line,
each terminated by a newline. -/
def cut_impl (sep : Char) (fields : List Int) (lines : List String) : String :=
  strConcat (lines.map (fun l => cutLine sep fields l ++ "\n"))

/-- Joining a list of tokens with a single delimiter character between
consecutive tokens. -/
def sepJoin (sep : Char) : List String → String
  | [] => ""
  | t :: ts => t ++ strConcat (ts.map (fun u => String.singleton sep ++ u))

/-- A second definition following the words of the C5 claim, to be compared
with cutLine: every selected field index is extracted, an index beyond the
number of fields available yields an empty string, and the extracted
tokens, the empty ones included, are re-emitted joined by the delimiter. -/
def cutLineSpecC5 (sep : Char) (fields : List Int) (line : String) : String :=
  sepJoin sep (fields.map (fun f => (cutTokens sep line).getD (f - 1).toNat ""))

/-- C5 counterexample: on the line a:b with delimiter : and field selection
1,5 the code emits the row a, whereas the claim, which makes the
out-of-range index 5 contribute an empty token to the delimiter-joined
row, would give a: . Out-of-range selected indices are skipped entirely
by cut_impl, they do not yield empty fields. -/
theorem cut_out_of_range_not_empty_field :
    cutLine ':' [1, 5] "a:b" = "a" ∧ cutLineSpecC5 ':' [1, 5] "a:b" = "a:" ∧
      ("a" : String) ≠ "a:" := by
  decide

/-- The in-range selected tokens of one line, in selector order. -/
def cutSelected (toks : List String) (fields : List Int) : List String :=
  (fields.filter (fun f => decide (1 ≤ f ∧ f ≤ (toks.length : Int)))).map
    (fun f => toks.getD (f - 1).toNat "")

theorem cutEmit_false_eq (sep : Char) (toks : List String) (fs : List Int) :
    cutEmit sep toks fs false =
      strConcat ((cutSelected toks fs).map (fun t => String.singleton sep ++ t)) := by
  induction fs with
  | nil => rfl
  | cons f fs ih =>
    by_cases h : 1 ≤ f ∧ f ≤ (toks.length : Int)
    · simp only [cutEmit, if_pos h, cutSelected, List.filter_cons, decide_eq_true h,
        if_pos, List.map_cons, strConcat, cutSelected] at ih ⊢
      rw [ih]
      simp [String.append_assoc]
    · simp only [cutEmit, if_neg h, cutSelected, List.filter_cons] at ih ⊢
      rw [decide_eq_false h]
      simpa using ih

theorem cutEmit_true_eq (sep : Char) (toks : List String) (fs : List Int) :
    cutEmit sep toks fs true = sepJoin sep (cutSelected toks fs) := by
  induction fs with
  | nil => rfl
  | cons f fs ih =>
    by_cases h : 1 ≤ f ∧ f ≤ (toks.length : Int)
    · simp only [cutEmit, if_pos h, cutSelected, List.filter_cons, decide_eq_true h,
        if_pos, List.map_cons, sepJoin]
      rw [cutEmit_false_eq, String.empty_append]
      rfl
    · simp only [cutEmit, if_neg h, cutSelected, List.filter_cons] at ih ⊢
      rw [decide_eq_false h]
      simpa using ih

/-- C5 amended: in delimiter mode of cut, for every input line and field
selector, a selected field index beyond the number of fields available in
that line (or below one) is skipped entirely, contributing neither a token
nor a delimiter to the output row and never causing an error; the emitted
row is exactly the in-range selected fields, in selector order, joined by
the delimiter. -/
theorem cut_skips_out_of_range_fields (sep : Char) (fields : List Int) (line : String) :
    cutLine sep fields line = sepJoin sep (cutSelected (cutTokens sep line) fields) :=
  cutEmit_true_eq sep (cutTokens sep line) fields

/-- Insertion into a std::set of strings represented as its ascending list
of members: the element is placed at its position in the byte-wise
lexicographic order, and inserting an element already present leaves the
set unchanged. -/
def setInsert (x : String) : List String → List String
  | [] => [x]
  | y :: ys =>
    if x < y then x :: y :: ys
    else if x = y then y :: ys
    else y :: setInsert x ys

/-- The std::set built by comm_impl from the line list of one file:
every line is inserted in turn, as the range constructor of std::set
does. -/
def mkStrSet (lines : List String) : List String :=
  lines.foldl (fun s x => setInsert x s) []

theorem mem_setInsert (a x : String) (l : List String) :
    a ∈ setInsert x l ↔ a = x ∨ a ∈ l := by
  induction l with
  | nil => simp only [setInsert, List.mem_singleton, List.not_mem_nil, or_false]
  | cons y ys ih =>
    simp only [setInsert]
    split_ifs with h1 h2
    · simp only [List.mem_cons]
    · subst h2
      simp only [List.mem_cons]
      tauto
    · simp only [List.mem_cons, ih]
      tauto

theorem sorted_setInsert (x : String) (l : List String)
    (h : l.Sorted (· < ·)) : (setInsert x l).Sorted (· < ·) := by
  induction l with
  | nil => simp only [setInsert, List.sorted_singleton]
  | cons y ys ih =>
    rw [List.sorted_cons] at h
    simp only [setInsert]
    split_ifs with h1 h2
    · rw [List.sorted_cons]
      refine ⟨?_, List.sorted_cons.mpr h⟩
      intro b hb
      rcases List.mem_cons.mp hb with hb | hb
      · exact hb ▸ h1
      · exact lt_trans h1 (h.1 b hb)
    · rw [List.sorted_cons]
      exact h
    · rw [List.sorted_cons]
      have hyx : y < x := by
        rcases lt_trichotomy x y with h3 | h3 | h3
        · exact absurd h3 h1
        · exact absurd h3 h2
        · exact h3
      refine ⟨?_, ih h.2⟩
      intro b hb
      rcases (mem_setInsert b x ys).mp hb with hb | hb
      · exact hb ▸ hyx
      · exact h.1 b hb

theorem mkStrSet_sorted_aux (lines acc : List String)
    (h : acc.Sorted (· < ·)) :
    (lines.foldl (fun s x => setInsert x s) acc).Sorted (· < ·) := by
  induction lines generalizing acc with
  | nil => exact h
  | cons a rest ih => exact ih (setInsert a acc) (sorted_setInsert a acc h)

theorem mkStrSet_sorted (lines : List String) : (mkStrSet lines).Sorted (· < ·) :=
  mkStrSet_sorted_aux lines [] (by simp)

theorem mkStrSet_mem_aux (x : String) (lines acc : List String) :
    x ∈ lines.foldl (fun s y => setInsert y s) acc ↔ x ∈ lines ∨ x ∈ acc := by
  induction lines generalizing acc with
  | nil => simp
  | cons a rest ih =>
    simp only [List.foldl_cons, ih, mem_setInsert, List.mem_cons]
    tauto

theorem mem_mkStrSet (x : String) (lines : List String) :
    x ∈ mkStrSet lines ↔ x ∈ lines := by
  rw [mkStrSet, mkStrSet_mem_aux]
  simp

theorem sortedLt_nodup (l : List String) (h : l.Sorted (· < ·)) : l.Nodup :=
  h.imp (fun hlt => ne_of_lt hlt)

/-- Two strictly ascending lists with the same members are equal. -/
theorem sortedLt_eq_of_mem_iff :
    ∀ (l m : List String), l.Sorted (· < ·) → m.Sorted (· < ·) →
      (∀ x, x ∈ l ↔ x ∈ m) → l = m
  | [], [], _, _, _ => rfl
  | [], b :: m2, _, _, hmem => by
    exact absurd ((hmem b).mpr (List.mem_cons_self b m2)) (List.not_mem_nil b)
  | a :: l2, [], _, _, hmem => by
    exact absurd ((hmem a).mp (List.mem_cons_self a l2)) (List.not_mem_nil a)
  | a :: l2, b :: m2, hl, hm, hmem => by
    rw [List.sorted_cons] at hl hm
    have hab : a = b := by
      rcases List.mem_cons.mp ((hmem a).mp (List.mem_cons_self a l2)) with h | h
      · exact h
      · rcases List.mem_cons.mp ((hmem b).mpr (List.mem_cons_self b m2)) with h2 | h2
        · exact h2.symm
        · exact absurd (hm.1 a h) (not_lt_of_lt (hl.1 b h2))
    subst hab
    have htail : ∀ x, x ∈ l2 ↔ x ∈ m2 := by
      intro x
      constructor
      · intro hx
        rcases List.mem_cons.mp ((hmem x).mp (List.mem_cons_of_mem a hx)) with h | h
        · exact absurd (h ▸ hl.1 x hx) (lt_irrefl x)
        · exact h
      · intro hx
        rcases List.mem_cons.mp ((hmem x).mpr (List.mem_cons_of_mem a hx)) with h | h
        · exact absurd (h ▸ hm.1 x hx) (lt_irrefl x)
        · exact h
    rw [sortedLt_eq_of_mem_iff l2 m2 hl.2 hm.2 htail]

theorem mkStrSet_perm_eq (l l2 : List String) (h : l.Perm l2) :
    mkStrSet l = mkStrSet l2 := by
  refine sortedLt_eq_of_mem_iff _ _ (mkStrSet_sorted l) (mkStrSet_sorted l2) ?_
  intro x
  rw [mem_mkStrSet, mem_mkStrSet]
  exact ⟨fun hx => h.mem_iff.mp hx, fun hx => h.mem_iff.mpr hx⟩

/-- The lines only in the first file: comm_impl iterates set1 in ascending
order and keeps the lines that set2 does not contain. -/
def comm_only1 (lines1 lines2 : List String) : List String :=
  (mkStrSet lines1).filter (fun x => ! decide (x ∈ mkStrSet lines2))

/-- The lines in both files: comm_impl iterates set1 in ascending order and
keeps the lines that set2 contains. -/
def comm_both (lines1 lines2 : List String) : List String :=
  (mkStrSet lines1).filter (fun x => decide (x ∈ mkStrSet lines2))

/-- The lines only in the second file: comm_impl iterates set2 in ascending
order and keeps the lines that set1 does not contain. -/
def comm_only2 (lines1 lines2 : List String) : List String :=
  (mkStrSet lines2).filter (fun x => ! decide (x ∈ mkStrSet lines1))

/-- C8: the three collections of comm_impl partition the distinct lines of
the two files: only_in_first with in_both gives exactly the lines of the
first file, only_in_second with in_both gives exactly the lines of the
second file, and the three collections are pairwise disjoint. Duplicate
lines inside one file collapse to a single set membership. -/
theorem comm_partition (lines1 lines2 : List String) (x : String) :
    ((x ∈ comm_only1 lines1 lines2 ∨ x ∈ comm_both lines1 lines2) ↔ x ∈ lines1) ∧
    ((x ∈ comm_only2 lines1 lines2 ∨ x ∈ comm_both lines1 lines2) ↔ x ∈ lines2) ∧
    ¬ (x ∈ comm_only1 lines1 lines2 ∧ x ∈ comm_only2 lines1 lines2) ∧
    ¬ (x ∈ comm_only1 lines1 lines2 ∧ x ∈ comm_both lines1 lines2) ∧
    ¬ (x ∈ comm_only2 lines1 lines2 ∧ x ∈ comm_both lines1 lines2) := by
  simp only [comm_only1, comm_both, comm_only2, List.mem_filter, mem_mkStrSet,
    Bool.not_eq_true', decide_eq_false_iff_not, decide_eq_true_eq]
  tauto

/-- C10: each of the three collections of comm_impl is strictly ascending
in the byte-wise lexicographic order and has no duplicates, and the three
collections depend only on the sets of lines of the two files: permuting
the lines of either input file leaves all three outputs unchanged. -/
theorem comm_sorted_and_order_independent (lines1 lines2 : List String) :
    (comm_only1 lines1 lines2).Sorted (· < ·) ∧ (comm_only1 lines1 lines2).Nodup ∧
    (comm_both lines1 lines2).Sorted (· < ·) ∧ (comm_both lines1 lines2).Nodup ∧
    (comm_only2 lines1 lines2).Sorted (· < ·) ∧ (comm_only2 lines1 lines2).Nodup ∧
    (∀ lines1b lines2b, lines1.Perm lines1b → lines2.Perm lines2b →
      comm_only1 lines1b lines2b = comm_only1 lines1 lines2 ∧
      comm_both lines1b lines2b = comm_both lines1 lines2 ∧
      comm_only2 lines1b lines2b = comm_only2 lines1 lines2) := by
  have hs1 : (comm_only1 lines1 lines2).Sorted (· < ·) :=
    (mkStrSet_sorted lines1).filter _
  have hs2 : (comm_both lines1 lines2).Sorted (· < ·) :=
    (mkStrSet_sorted lines1).filter _
  have hs3 : (comm_only2 lines1 lines2).Sorted (· < ·) :=
    (mkStrSet_sorted lines2).filter _
  refine ⟨hs1, sortedLt_nodup _ hs1, hs2, sortedLt_nodup _ hs2,
    hs3, sortedLt_nodup _ hs3, ?_⟩
  intro lines1b lines2b hp1 hp2
  have e1 : mkStrSet lines1b = mkStrSet lines1 := mkStrSet_perm_eq _ _ hp1.symm
  have e2 : mkStrSet lines2b = mkStrSet lines2 := mkStrSet_perm_eq _ _ hp2.symm
  refine ⟨?_, ?_, ?_⟩ <;> simp only [comm_only1, comm_both, comm_only2, e1, e2]

/-- Witness for the C10 theorem: concrete files with repeated and unsorted
lines, permuted, give the same strictly ascending outputs. -/
theorem comm_sorted_and_order_independent_witness :
    comm_only1 ["a", "b", "b"] ["a", "c"] = comm_only1 ["b", "a", "b"] ["c", "a"] ∧
    comm_both ["a", "b", "b"] ["a", "c"] = comm_both ["b", "a", "b"] ["c", "a"] ∧
    comm_only2 ["a", "b", "b"] ["a", "c"] = comm_only2 ["b", "a", "b"] ["c", "a"] :=
  (comm_sorted_and_order_independent ["b", "a", "b"] ["c", "a"]).2.2.2.2.2.2
    ["a", "b", "b"] ["a", "c"] (List.Perm.swap "a" "b" ["b"]) (List.Perm.swap "a" "c" [])

/-- The token accumulation behind the stream extraction iss >> token: the
input is cut into maximal runs of non-whitespace characters. The first
argument holds the characters of the current run in reverse. -/
def wsTokensGo (cur : List Char) : List Char → List (List Char)
  | [] => if cur.isEmpty then [] else [cur.reverse]
  | c :: cs =>
    if isCppSpace c then
      if cur.isEmpty then wsTokensGo [] cs else cur.reverse :: wsTokensGo [] cs
    else wsTokensGo (c :: cur) cs

/-- The whitespace-separated tokens of a line, in order. -/
def wsTokens (line : String) : List String :=
  (wsTokensGo [] line.toList).map String.mk

/-- The field-skipping loop shared by get_key of sort_impl and get_field of
join_impl in delimiter mode: n times, the text up to and including the next
delimiter occurrence is dropped; if no occurrence is left the loop reports
failure, which the callers turn into an empty key. -/
def dropSepFields (sep : Char) : Nat → List Char → Option (List Char)
  | 0, cs => some cs
  | n + 1, cs =>
    match cs.dropWhile (· ≠ sep) with
    | [] => none
    | _ :: rest => dropSepFields sep n rest

/-- Extraction of one delimiter-separated field after skipping n earlier
fields, as the delimiter branches of get_key and get_field do: on a failed
skip the result is the empty string, otherwise the text up to the next
delimiter occurrence or the end of the line. -/
def sepFieldExtract (sep : Char) (skips : Nat) (line : String) : String :=
  match dropSepFields sep skips line.toList with
  | none => ""
  | some temp => String.mk (temp.takeWhile (· ≠ sep))

/-- get_key of sort_impl: key at most 0 selects the whole line; with an
empty separator the key-th whitespace token is used (empty when the line
has fewer tokens); otherwise key - 1 fields separated by the first
character of the separator are skipped and the next field is the key
(empty when a skip finds no further delimiter). -/
def get_key (key : Int) (sepStr : String) (line : String) : String :=
  if key ≤ 0 then line
  else if sepStr = "" then (wsTokens line).getD (key.toNat - 1) ""
  else sepFieldExtract (sepStr.toList.headD ' ') (key.toNat - 1) line

/-- An exact rational written as an integer numerator over a positive
natural denominator; the denominator is a power of the literal base by
construction and is not normalised. -/
structure Frac where
  num : Int
  den : Nat
deriving Repr, DecidableEq

/-- The value classes std::stod can return: a finite value (modelled as the
exact rational value of the accepted literal: the rounding of the literal
to the nearest double, and the over- and underflow exceptions of
std::stod, are not modelled; no claim settled here depends on them), a
signed infinity, or a NaN. -/
inductive NumVal where
  | rat (f : Frac)
  | inf (neg : Bool)
  | nan
deriving Repr, DecidableEq

/-- The strict comparison va < vb that the numeric comparator of sort_impl
performs on the two parsed doubles: NaN compares false against everything,
negative infinity is below every non-NaN value other than itself, positive
infinity is above every non-NaN value other than itself. -/
def NumVal.lt : NumVal → NumVal → Bool
  | .nan, _ => false
  | _, .nan => false
  | .inf true, .inf true => false
  | .inf true, _ => true
  | _, .inf true => false
  | .inf false, _ => false
  | _, .inf false => true
  | .rat a, .rat b => decide (a.num * (b.den : Int) < b.num * (a.den : Int))

/-- Value of a decimal digit character. -/
def digitVal (c : Char) : Nat := c.toNat - 48

/-- Value of a hexadecimal digit character. -/
def hexDigitVal (c : Char) : Nat :=
  if c.isDigit then c.toNat - 48 else c.toLower.toNat - 97 + 10

/-- Decimal digit test. -/
def isDec (c : Char) : Bool := c.isDigit

/-- Hexadecimal digit test. -/
def isHex (c : Char) : Bool :=
  c.isDigit || ('a' ≤ c.toLower && c.toLower ≤ 'f')

/-- Accumulation of a digit run into a natural number in the given base. -/
def natFromDigits (base : Nat) (dv : Char → Nat) (ds : List Char) : Nat :=
  ds.foldl (fun a c => a * base + dv c) 0

/-- An optional leading sign, as strtod consumes it; true means negative. -/
def stripSign : List Char → Bool × List Char
  | '-' :: r => (true, r)
  | '+' :: r => (false, r)
  | cs => (false, cs)

/-- Case-insensitive test that the second list starts with the first; the
first list is given in lower case. -/
def startsWithCI : List Char → List Char → Bool
  | [], _ => true
  | _ :: _, [] => false
  | p :: ps, c :: cs => (c.toLower = p) && startsWithCI ps cs

/-- A trailing exponent marked by the given letter, as strtod consumes it:
the exponent is read only when at least one digit follows the marker and
optional sign; otherwise strtod backs off and the exponent is zero. -/
def parseExpPart (marker : Char) (cs : List Char) : Int :=
  match cs with
  | c :: rest =>
    if c.toLower = marker then
      let sr := stripSign rest
      let ds := sr.2.takeWhile isDec
      if ds.isEmpty then 0
      else if sr.1 then -(natFromDigits 10 digitVal ds : Int)
      else (natFromDigits 10 digitVal ds : Int)
    else 0
  | [] => 0

/-- The exact value of a literal: the mantissa digits give the fraction
(ipv * baseM ^ |fp| + fpv) / baseM ^ |fp| and the exponent e scales it by
baseE ^ e, into the numerator when non-negative and into the denominator
otherwise. -/
def litValue (neg : Bool) (baseM baseE : Nat) (dv : Char → Nat)
    (ip fp : List Char) (e : Int) : NumVal :=
  let mantNum : Nat := natFromDigits baseM dv ip * baseM ^ fp.length +
    natFromDigits baseM dv fp
  let num : Int := if e ≥ 0 then (mantNum * baseE ^ e.toNat : Nat) else mantNum
  let den : Nat := if e ≥ 0 then baseM ^ fp.length
    else baseM ^ fp.length * baseE ^ (-e).toNat
  .rat ⟨if neg then -num else num, den⟩

/-- The finite value of a decimal literal with integer part ip, fraction
part fp and power-of-ten exponent e. -/
def decValue (neg : Bool) (ip fp : List Char) (e : Int) : NumVal :=
  litValue neg 10 10 digitVal ip fp e

/-- The finite value of a hexadecimal literal with integer part ip,
fraction part fp and power-of-two exponent e. -/
def hexValue (neg : Bool) (ip fp : List Char) (e : Int) : NumVal :=
  litValue neg 16 2 hexDigitVal ip fp e

/-- A decimal mantissa with optional fraction and exponent, after sign
removal: strtod succeeds exactly when at least one digit appears before or
directly after the decimal point. -/
def parseDecTail (neg : Bool) (cs : List Char) : Option NumVal :=
  let ip := cs.takeWhile isDec
  let r1 := cs.dropWhile isDec
  match r1 with
  | '.' :: r2 =>
    let fp := r2.takeWhile isDec
    let r3 := r2.dropWhile isDec
    if ip.isEmpty && fp.isEmpty then none
    else some (decValue neg ip fp (parseExpPart 'e' r3))
  | _ => if ip.isEmpty then none else some (decValue neg ip [] (parseExpPart 'e' r1))

/-- A hexadecimal mantissa after the 0x marker: when no hexadecimal digit
follows, strtod falls back to the plain prefix 0 and the value is zero. -/
def parseHexTail (neg : Bool) (cs : List Char) : NumVal :=
  let ip := cs.takeWhile isHex
  let r1 := cs.dropWhile isHex
  match r1 with
  | '.' :: r2 =>
    let fp := r2.takeWhile isHex
    let r3 := r2.dropWhile isHex
    if ip.isEmpty && fp.isEmpty then .rat ⟨0, 1⟩
    else hexValue neg ip fp (parseExpPart 'p' r3)
  | _ => if ip.isEmpty then .rat ⟨0, 1⟩ else hexValue neg ip [] (parseExpPart 'p' r1)

/-- std::stod as the numeric branch of sort_impl calls it: leading
whitespace and an optional sign are consumed, then an infinity word, a NaN
word, a hexadecimal literal or a decimal literal; none gives the parse
failure that the surrounding try block of sort_impl catches. -/
def stod (s : String) : Option NumVal :=
  let cs := s.toList.dropWhile isCppSpace
  let sr := stripSign cs
  if startsWithCI ['i', 'n', 'f'] sr.2 then some (.inf sr.1)
  else if startsWithCI ['n', 'a', 'n'] sr.2 then some .nan
  else
    match sr.2 with
    | '0' :: c :: rest =>
      if c.toLower = 'x' then some (parseHexTail sr.1 rest)
      else parseDecTail sr.1 sr.2
    | _ => parseDecTail sr.1 sr.2

/-- The lexicographic strict comparison of character lists by code point,
which is the comparison operator< of std::string performs on its bytes. -/
def lexLtB : List Char → List Char → Bool
  | [], [] => false
  | [], _ :: _ => true
  | _ :: _, [] => false
  | c :: cs, d :: ds =>
    if c.toNat < d.toNat then true
    else if d.toNat < c.toNat then false
    else lexLtB cs ds

/-- operator< of std::string on two lines. -/
def strLtB (a b : String) : Bool := lexLtB a.toList b.toList

theorem lexLtB_iff_lex (cs : List Char) :
    ∀ ds, lexLtB cs ds = true ↔ List.Lex (· < ·) cs ds := by
  induction cs with
  | nil =>
    intro ds
    cases ds with
    | nil =>
      simp only [lexLtB, Bool.false_eq_true, false_iff]
      exact List.Lex.not_nil_right _ _
    | cons d ds =>
      simp only [lexLtB, true_iff]
      exact List.Lex.nil
  | cons c cs ih =>
    intro ds
    cases ds with
    | nil =>
      simp only [lexLtB, Bool.false_eq_true, false_iff]
      exact List.Lex.not_nil_right _ _
    | cons d ds =>
      simp only [lexLtB]
      rcases Nat.lt_trichotomy c.toNat d.toNat with h | h | h
      · rw [if_pos h]
        simp only [true_iff]
        exact List.Lex.rel h
      · have hcd : c = d := Char.ext (UInt32.ext h)
        subst hcd
        rw [if_neg (lt_irrefl _), if_neg (lt_irrefl _), ih ds]
        constructor
        · exact fun hl => List.Lex.cons hl
        · intro hl
          cases hl with
          | cons h2 => exact h2
          | rel h2 => exact absurd h2 (lt_irrefl _)
      · rw [if_neg (Nat.lt_asymm h), if_pos h]
        simp only [Bool.false_eq_true, false_iff]
        intro hl
        cases hl with
        | cons h2 => exact absurd h (lt_irrefl _)
        | rel h2 => exact absurd h (Nat.lt_asymm h2)

theorem strLtB_iff_lt (a b : String) : strLtB a b = true ↔ a < b := by
  rw [String.lt_iff_toList_lt]
  exact lexLtB_iff_lex a.toList b.toList

theorem strLtB_eq_false_iff_le (a b : String) : strLtB b a = false ↔ a ≤ b := by
  rw [← Bool.not_eq_true, strLtB_iff_lt, not_lt]

/-- The comparator of the numeric branch of sort_impl: both derived keys
are parsed with std::stod and their double values compared; when either
parse fails, the thrown exception is caught and the whole lines are
compared lexicographically instead. -/
def numericLess (key : Int) (sepStr : String) (a b : String) : Bool :=
  match stod (get_key key sepStr a), stod (get_key key sepStr b) with
  | some va, some vb => NumVal.lt va vb
  | _, _ => strLtB a b

/-- ASCII lowering of every character of a string, as the std::transform
with ::tolower of the case-insensitive branch of sort_impl does. -/
def lowerStr (s : String) : String := String.mk (s.toList.map Char.toLower)

/-- The comparator of the case-insensitive branch of sort_impl: the two
derived keys are lowered and compared lexicographically. -/
def ciLess (key : Int) (sepStr : String) (a b : String) : Bool :=
  strLtB (lowerStr (get_key key sepStr a)) (lowerStr (get_key key sepStr b))

/-- The comparator of the plain branch of sort_impl: the two derived keys
are compared lexicographically. -/
def plainLess (key : Int) (sepStr : String) (a b : String) : Bool :=
  strLtB (get_key key sepStr a) (get_key key sepStr b)

/-- The comparator sort_impl hands to std::sort, selected by the numeric
and ignore_case flags in that order. -/
def sortCmp (numeric ignoreCase : Bool) (key : Int) (sepStr : String) :
    String → String → Bool :=
  fun a b =>
    if numeric then numericLess key sepStr a b
    else if ignoreCase then ciLess key sepStr a b
    else plainLess key sepStr a b

/-- The is_sorted postcondition of std::sort: no element strictly precedes
its immediate predecessor under the comparator. -/
def pairwiseOkB (cmp : String → String → Bool) : List String → Bool
  | [] => true
  | [_] => true
  | a :: b :: r => !cmp b a && pairwiseOkB cmp (b :: r)

/-- The contract of std::sort with a comparator: the output is some
permutation of the input that satisfies is_sorted. The relative order of
elements the comparator treats as equivalent is not specified, which is
exactly what distinguishes std::sort from std::stable_sort. -/
def stdSortSpec (cmp : String → String → Bool) (inp out : List String) : Prop :=
  inp.Perm out ∧ pairwiseOkB cmp out = true

/-- std::unique followed by erase, applied by sort_impl when unique is
set: every line equal to its immediate predecessor is dropped. -/
def adjacentUnique : List String → List String
  | [] => []
  | [a] => [a]
  | a :: b :: r =>
    if a = b then adjacentUnique (a :: r) else a :: adjacentUnique (b :: r)
termination_by l => l.length

/-- The input-output relation of sort_impl on the line list of the file:
some std::sort outcome under the selected comparator, reversed when
reverse is set, then adjacent de-duplication when unique is set. -/
def sort_impl_post (reverse numeric unique : Bool) (key : Int)
    (sepStr : String) (ignoreCase : Bool) (lines out : List String) : Prop :=
  ∃ mid, stdSortSpec (sortCmp numeric ignoreCase key sepStr) lines mid ∧
    out = (if unique then adjacentUnique (if reverse then mid.reverse else mid)
           else (if reverse then mid.reverse else mid))

theorem pairwiseOkB_iff_chain (cmp : String → String → Bool) :
    ∀ l : List String, pairwiseOkB cmp l = true ↔ l.Chain' (fun a b => cmp b a = false)
  | [] => by simp [pairwiseOkB]
  | [a] => by simp [pairwiseOkB]
  | a :: b :: r => by
    rw [List.chain'_cons]
    simp only [pairwiseOkB, Bool.and_eq_true, Bool.not_eq_true']
    exact and_congr Iff.rfl (pairwiseOkB_iff_chain cmp (b :: r))

/-- C1 counterexample: with numeric sorting on key field 1, the two lines
1 b and 1 a have equal derived numeric keys, and the reversed order
1 a, 1 b is a legitimate outcome of sort_impl on the input 1 b, 1 a:
it is a permutation of the input satisfying the is_sorted postcondition of
std::sort, which is all std::sort guarantees. The claim requires the tied
lines to keep their original relative order, which this outcome violates:
sort_impl calls std::sort, not std::stable_sort, so no stability holds. -/
theorem sort_tie_order_not_preserved :
    sort_impl_post false true false 1 "" false ["1 b", "1 a"] ["1 a", "1 b"] ∧
    numericLess 1 "" "1 b" "1 a" = false ∧
    numericLess 1 "" "1 a" "1 b" = false ∧
    (["1 a", "1 b"] : List String) ≠ ["1 b", "1 a"] := by
  refine ⟨⟨["1 a", "1 b"], ⟨List.Perm.swap "1 a" "1 b" [], by decide⟩, by decide⟩,
    by decide, by decide, by decide⟩

/-- C1 amended: sort_impl hands the selected comparator to std::sort, whose
contract only makes the output a permutation of the input lines with no
adjacent pair inverted under the comparator; the relative order of
distinct lines whose derived keys compare equal is unspecified, because
std::sort is not stable. The first conjunct shows the part of the claim
that survives: in plain lexicographic whole-line mode the comparator is a
strict total order on lines, so the output is uniquely determined (two
lines compare equal only when they are the same string, making stability
vacuous). The second conjunct shows the reverse part of the claim exactly
as stated: reverse=true only inverts the final ordering and does not
change the comparator. -/
theorem sort_contract_deterministic_lex_and_reverse :
    (∀ lines o1 o2 : List String,
      stdSortSpec (sortCmp false false 0 "") lines o1 →
      stdSortSpec (sortCmp false false 0 "") lines o2 → o1 = o2) ∧
    (∀ (numeric : Bool) (key : Int) (sepStr : String) (ignoreCase : Bool)
      (lines out : List String),
      sort_impl_post true numeric false key sepStr ignoreCase lines out ↔
      sort_impl_post false numeric false key sepStr ignoreCase lines out.reverse) := by
  constructor
  · intro lines o1 o2 h1 h2
    haveI : IsTrans String (· ≤ ·) := ⟨fun _ _ _ => le_trans⟩
    haveI : IsAntisymm String (· ≤ ·) := ⟨fun _ _ => le_antisymm⟩
    have hcmp : ∀ l : List String, pairwiseOkB (sortCmp false false 0 "") l = true →
        l.Sorted (· ≤ ·) := by
      intro l hl
      rw [pairwiseOkB_iff_chain] at hl
      rw [List.Sorted, ← List.chain'_iff_pairwise]
      refine hl.imp ?_
      intro a b hab
      rw [← strLtB_eq_false_iff_le]
      simpa [sortCmp, plainLess, get_key] using hab
    exact List.eq_of_perm_of_sorted (h1.1.symm.trans h2.1) (hcmp o1 h1.2) (hcmp o2 h2.2)
  · intro numeric key sepStr ignoreCase lines out
    constructor
    · rintro ⟨mid, hspec, hout⟩
      refine ⟨mid, hspec, ?_⟩
      simp only [Bool.false_eq_true, if_false, if_true] at hout ⊢
      rw [hout, List.reverse_reverse]
    · rintro ⟨mid, hspec, hout⟩
      refine ⟨mid, hspec, ?_⟩
      simp only [Bool.false_eq_true, if_false, if_true] at hout ⊢
      rw [← hout, List.reverse_reverse]

/-- Witness for the C1 amended theorem: the whole-line lexicographic sort
of the lines b, a is uniquely the list a, b. -/
theorem sort_contract_deterministic_lex_witness :
    stdSortSpec (sortCmp false false 0 "") ["b", "a"] ["a", "b"] ∧
      (["a", "b"] : List String) = ["a", "b"] :=
  ⟨⟨List.Perm.swap "a" "b" [], by decide⟩,
    sort_contract_deterministic_lex_and_reverse.1 ["b", "a"] ["a", "b"] ["a", "b"]
      ⟨List.Perm.swap "a" "b" [], by decide⟩ ⟨List.Perm.swap "a" "b" [], by decide⟩⟩

/-- C4: in numeric mode, whenever std::stod fails on either derived key,
the comparator of sort_impl falls back to the lexicographic comparison of
the two whole lines, not of the keys, and the failure is absorbed by the
catch block rather than raised (the comparator is a total function). The
final conjunct identifies the fallback with the lexicographic order on
strings. -/
theorem sort_numeric_parse_failure_fallback
    (key : Int) (sepStr : String) (a b : String)
    (h : stod (get_key key sepStr a) = none ∨ stod (get_key key sepStr b) = none) :
    numericLess key sepStr a b = strLtB a b ∧ (strLtB a b = true ↔ a < b) := by
  refine ⟨?_, strLtB_iff_lt a b⟩
  unfold numericLess
  rcases h with h | h
  · rw [h]
  · rw [h]
    cases stod (get_key key sepStr a) <;> rfl

/-- Witness for the C4 theorem: the key of the line x 1 does not parse, so
the lines x 1 and 2 b are compared as whole lines. -/
theorem sort_numeric_parse_failure_fallback_witness :
    stod (get_key 1 "" "x 1") = none ∧
      (numericLess 1 "" "x 1" "2 b" = strLtB "x 1" "2 b" ∧
        (strLtB "x 1" "2 b" = true ↔ "x 1" < "2 b")) :=
  ⟨by decide, sort_numeric_parse_failure_fallback 1 "" "x 1" "2 b" (Or.inl (by decide))⟩

/-- One entry of the edit script diff_impl builds: the C++ struct DiffLine
with type character (space, plus, minus), the line text, and the 1-based
position in the file the line belongs to (the other position is 0 and is
omitted here). -/
inductive DiffOp where
  | equal (text : String) (pos1 pos2 : Nat)
  | ins (text : String) (pos2 : Nat)
  | del (text : String) (pos1 : Nat)
deriving Repr, DecidableEq

/-- The dynamic-programming LCS table of diff_impl: lcsLen A B i j is
dp[i][j], the length of the longest common subsequence of the first i
lines of A and the first j lines of B, filled by the recurrence of the
double loop. -/
def lcsLen (A B : List String) : Nat → Nat → Nat
  | 0, _ => 0
  | _ + 1, 0 => 0
  | i + 1, j + 1 =>
    if A.getD i "" = B.getD j "" then lcsLen A B i j + 1
    else max (lcsLen A B i (j + 1)) (lcsLen A B (i + 1) j)
termination_by i j => (i, j)

/-- The backtrack loop of diff_impl, producing the edit script in reverse
order, last operation first. At position (i, j) with i, j > 0 and equal
current lines an equal entry is taken; otherwise, when j > 0 and either
i = 0 or dp[i][j-1] >= dp[i-1][j], an insertion from the second file is
taken; otherwise a deletion from the first file. -/
def diffBack (A B : List String) : Nat → Nat → List DiffOp
  | 0, 0 => []
  | i + 1, 0 => .del (A.getD i "") (i + 1) :: diffBack A B i 0
  | 0, j + 1 => .ins (B.getD j "") (j + 1) :: diffBack A B 0 j
  | i + 1, j + 1 =>
    if A.getD i "" = B.getD j "" then
      .equal (A.getD i "") (i + 1) (j + 1) :: diffBack A B i j
    else if lcsLen A B i (j + 1) ≤ lcsLen A B (i + 1) j then
      .ins (B.getD j "") (j + 1) :: diffBack A B (i + 1) j
    else
      .del (A.getD i "") (i + 1) :: diffBack A B i (j + 1)
termination_by i j => (i, j)

/-- The edit script of diff_impl in file order: the reverse of the
backtrack output. -/
def diffOps (A B : List String) : List DiffOp :=
  (diffBack A B A.length B.length).reverse

/-- Application of the edit script to the first file, as the C2 claim
describes it: the text of every equal entry is kept, the text of every
insertion is emitted, every deletion is skipped. -/
def keepNew : DiffOp → Option String
  | .equal t _ _ => some t
  | .ins t _ => some t
  | .del _ _ => none

theorem take_reverse_succ (B : List String) (j : Nat) (hj : j < B.length) :
    (B.take (j + 1)).reverse = B.getD j "" :: (B.take j).reverse := by
  rw [List.take_succ, List.getElem?_eq_getElem hj, List.getD_eq_getElem B "" hj]
  simp

theorem diffBack_keepNew (A B : List String) :
    ∀ n i j, i + j ≤ n → i ≤ A.length → j ≤ B.length →
      (diffBack A B i j).filterMap keepNew = (B.take j).reverse := by
  intro n
  induction n with
  | zero =>
    intro i j hij hi hj
    have hi0 : i = 0 := by omega
    have hj0 : j = 0 := by omega
    subst hi0; subst hj0
    simp [diffBack]
  | succ n ih =>
    intro i j hij hi hj
    match i, j with
    | 0, 0 => simp [diffBack]
    | i + 1, 0 =>
      simp only [diffBack, List.filterMap_cons, keepNew]
      exact ih i 0 (by omega) (by omega) (by omega)
    | 0, j + 1 =>
      simp only [diffBack, List.filterMap_cons, keepNew]
      rw [ih 0 j (by omega) (by omega) (by omega), take_reverse_succ B j (by omega)]
    | i + 1, j + 1 =>
      by_cases heq : A.getD i "" = B.getD j ""
      · simp only [diffBack, if_pos heq, List.filterMap_cons, keepNew]
        rw [ih i j (by omega) (by omega) (by omega), heq,
          take_reverse_succ B j (by omega)]
      · by_cases hle : lcsLen A B i (j + 1) ≤ lcsLen A B (i + 1) j
        · simp only [diffBack, if_neg heq, if_pos hle, List.filterMap_cons, keepNew]
          rw [ih (i + 1) j (by omega) (by omega) (by omega),
            take_reverse_succ B j (by omega)]
        · simp only [diffBack, if_neg heq, if_neg hle, List.filterMap_cons, keepNew]
          exact ih i (j + 1) (by omega) (by omega) (by omega)

/-- C2: applying the edit script of diff_impl to the first file by keeping
the text of every equal entry, emitting the text of every insertion and
skipping every deletion reconstructs the second file exactly, for all
finite line sequences. -/
theorem diff_round_trip (A B : List String) :
    (diffOps A B).filterMap keepNew = B := by
  rw [diffOps, List.filterMap_reverse,
    diffBack_keepNew A B (A.length + B.length) A.length B.length le_rfl le_rfl le_rfl,
    List.take_length, List.reverse_reverse]

/-- The LCS table entry is bounded by both of its indices. -/
theorem lcsLen_le (A B : List String) :
    ∀ i j, lcsLen A B i j ≤ i ∧ lcsLen A B i j ≤ j := by
  intro i j
  induction i, j using lcsLen.induct A B with
  | case1 j => simp [lcsLen]
  | case2 i => simp [lcsLen]
  | case3 i j heq ih =>
    rw [lcsLen, if_pos heq]
    omega
  | case4 i j heq ih1 ih2 =>
    rw [lcsLen, if_neg heq]
    omega

/-- Test for an equal entry of the edit script. -/
def isEqualOp : DiffOp → Bool
  | .equal _ _ _ => true
  | _ => false

theorem ite_false_eq_zero : (if false = true then (1 : Nat) else 0) = 0 := rfl

theorem diffBack_length_and_equal_count (A B : List String) :
    ∀ i j, (diffBack A B i j).length = i + j - lcsLen A B i j ∧
      (diffBack A B i j).countP isEqualOp = lcsLen A B i j := by
  intro i j
  induction i, j using diffBack.induct A B with
  | case1 => simp [diffBack, lcsLen]
  | case2 i ih =>
    have h0 : lcsLen A B i 0 = 0 := by
      match i with
      | 0 => rw [lcsLen]
      | k + 1 => rw [lcsLen]
    have h1 : lcsLen A B (i + 1) 0 = 0 := by rw [lcsLen]
    rw [h0] at ih
    simp only [diffBack, List.length_cons, List.countP_cons, h1, isEqualOp,
      ite_false_eq_zero]
    omega
  | case3 j ih =>
    have h0 : lcsLen A B 0 j = 0 := by rw [lcsLen]
    have h1 : lcsLen A B 0 (j + 1) = 0 := by rw [lcsLen]
    rw [h0] at ih
    simp only [diffBack, List.length_cons, List.countP_cons, h1, isEqualOp,
      ite_false_eq_zero]
    omega
  | case4 i j heq ih =>
    have hb := lcsLen_le A B i j
    have hl : lcsLen A B (i + 1) (j + 1) = lcsLen A B i j + 1 := by
      rw [lcsLen, if_pos heq]
    simp only [diffBack, if_pos heq, List.length_cons, List.countP_cons,
      Nat.succ_eq_add_one, hl, isEqualOp, if_true]
    omega
  | case5 i j heq hle ih =>
    have hb := lcsLen_le A B (i + 1) j
    have hl : lcsLen A B (i + 1) (j + 1) = lcsLen A B (i + 1) j := by
      rw [lcsLen, if_neg heq]
      exact Nat.max_eq_right hle
    simp only [diffBack, if_neg heq, if_pos hle, List.length_cons,
      List.countP_cons, hl, isEqualOp, ite_false_eq_zero]
    omega
  | case6 i j heq hle ih =>
    have hb := lcsLen_le A B i (j + 1)
    have hl : lcsLen A B (i + 1) (j + 1) = lcsLen A B i (j + 1) := by
      rw [lcsLen, if_neg heq]
      exact Nat.max_eq_left ((Nat.not_le.mp hle).le)
    simp only [diffBack, if_neg heq, if_neg hle, List.length_cons,
      List.countP_cons, hl, isEqualOp, ite_false_eq_zero]
    omega

/-- C3: first conjunct, the tie-break of the backtrack loop of diff_impl:
at a position where the current lines differ and both a deletion-first and
an insertion-first step are valid because dp[i][j-1] equals dp[i-1][j],
the condition dp[i][j-1] >= dp[i-1][j] holds, so the insertion from the
second file is taken. The backtrack is a function of its inputs, hence
deterministic. Second conjunct, minimality: the edit script carries
exactly lcs equal entries and n + m - 2 lcs insertions and deletions,
the minimum any insert/delete script between two sequences with longest
common subsequence length lcs can have. -/
theorem diff_tie_prefers_insertion :
    (∀ (A B : List String) (i j : Nat), i < A.length → j < B.length →
      A.getD i "" ≠ B.getD j "" → lcsLen A B i (j + 1) = lcsLen A B (i + 1) j →
      diffBack A B (i + 1) (j + 1) =
        .ins (B.getD j "") (j + 1) :: diffBack A B (i + 1) j) ∧
    (∀ A B : List String,
      (diffOps A B).length = A.length + B.length - lcsLen A B A.length B.length ∧
      (diffOps A B).countP isEqualOp = lcsLen A B A.length B.length) := by
  constructor
  · intro A B i j hi hj hne htie
    rw [diffBack, if_neg hne, if_pos (le_of_eq htie)]
  · intro A B
    have h := diffBack_length_and_equal_count A B A.length B.length
    rw [diffOps, List.length_reverse, List.countP_reverse]
    exact h

/-- Witness for the C3 theorem: on the one-line files x and y the deletion
and insertion scores are tied at the top corner and the backtrack emits
the insertion of y first. -/
theorem diff_tie_prefers_insertion_witness :
    lcsLen ["x"] ["y"] 0 1 = lcsLen ["x"] ["y"] 1 0 ∧
      diffBack ["x"] ["y"] 1 1 = .ins "y" 1 :: diffBack ["x"] ["y"] 1 0 :=
  ⟨by simp [lcsLen], diff_tie_prefers_insertion.1 ["x"] ["y"] 0 0 (by decide) (by decide)
    (by decide) (by simp [lcsLen])⟩

/-- get_field of join_impl: with the space separator (the default, also
chosen when the separator string is empty) the field-th whitespace token
is extracted through stream extraction, an out-of-range or non-positive
field giving the empty string; with any other separator character,
field - 1 delimited fields are skipped and the next one returned, a failed
skip giving the empty string. -/
def get_field (sep : Char) (field : Int) (line : String) : String :=
  if sep = ' ' then
    if field ≤ 0 then "" else (wsTokens line).getD (field.toNat - 1) ""
  else sepFieldExtract sep (field - 1).toNat line

/-- The JoinIndex of join_impl: the std::multimap built from the second
file, one entry per line, keyed by its extracted join field. std::multimap
keeps entries with equal keys in insertion order, so the index is modelled
as the keyed line list in file order. -/
def joinIndex (sep : Char) (field2 : Int) (lines2 : List String) :
    List (String × String) :=
  lines2.map (fun l => (get_field sep field2 l, l))

/-- equal_range over the index: the values of all entries whose key equals
the probe, in index order. -/
def equalRange (idx : List (String × String)) (k : String) : List String :=
  (idx.filter (fun p => decide (p.1 = k))).map (fun p => p.2)

/-- The output rows of join_impl: for every line of the first file, in
order, one row per index entry matching its key, formatted as the fileA
line, the separator character, then the matched fileB line. -/
def joinRows (sep : Char) (field1 field2 : Int) :
    List String → List String → List String
  | [], _ => []
  | a :: rest, lines2 =>
    ((equalRange (joinIndex sep field2 lines2) (get_field sep field1 a)).map
      (fun b => a ++ String.singleton sep ++ b)) ++
      joinRows sep field1 field2 rest lines2

/-- join_impl as a string: every row terminated by a newline. -/
def join_impl (sep : Char) (field1 field2 : Int)
    (lines1 lines2 : List String) : String :=
  strConcat ((joinRows sep field1 field2 lines1 lines2).map (fun r => r ++ "\n"))

theorem equalRange_joinIndex (sep : Char) (field2 : Int) (k : String) :
    ∀ lines2 : List String,
      equalRange (joinIndex sep field2 lines2) k =
        lines2.filter (fun b => decide (get_field sep field2 b = k)) := by
  intro lines2
  induction lines2 with
  | nil => rfl
  | cons b rest ih =>
    by_cases h : get_field sep field2 b = k
    · simpa [joinIndex, equalRange, List.filter_cons, h] using
        congrArg (List.cons b) ih
    · simpa [joinIndex, equalRange, List.filter_cons, h] using ih

/-- C7: join_impl realises full inner-join cardinality. The rows are
exactly, in file order, one row per pair of a fileA line and a matching
fileB line, each formatted as the fileA line, the separator, then the
matched fileB line; a fileA line with k matches hence contributes exactly
k consecutive rows and one with zero matches contributes nothing, and the
total row count is the sum over the fileA lines of their match counts. -/
theorem join_inner_cardinality (sep : Char) (field1 field2 : Int)
    (lines1 lines2 : List String) :
    joinRows sep field1 field2 lines1 lines2 =
      lines1.flatMap (fun a =>
        (lines2.filter (fun b =>
          decide (get_field sep field2 b = get_field sep field1 a))).map
          (fun b => a ++ String.singleton sep ++ b)) ∧
    (joinRows sep field1 field2 lines1 lines2).length =
      (lines1.map (fun a =>
        (lines2.filter (fun b =>
          decide (get_field sep field2 b = get_field sep field1 a))).length)).sum := by
  induction lines1 with
  | nil => exact ⟨rfl, rfl⟩
  | cons a rest ih =>
    constructor
    · simp only [joinRows, equalRange_joinIndex, List.flatMap_cons]
      rw [ih.1]
    · simp only [joinRows, List.length_append, List.length_map, List.map_cons,
        List.sum_cons, equalRange_joinIndex]
      rw [ih.2]

/-- The file-system events grep_impl can perform, in order: a metadata
access of a path (fs::exists, fs::is_regular_file, fs::is_directory and
the directory traversal of collect_files) and a read of the contents of a
regular file (read_lines). -/
inductive FsEvent where
  | access (path : String)
  | readLines (path : String)
deriving Repr, DecidableEq

/-- The errors of grep_impl, raised as ValueError: a missing path, a
directory target without recursive, and a pattern std::regex rejects. -/
inductive GrepErr where
  | notFound (path : String)
  | isADirectory (path : String)
  | invalidPattern (pat : String)
deriving Repr, DecidableEq

/-- One entry of the default result list of grep_impl: the originating
file when more than one file is searched, the 1-based line number when
line_numbers is set, and the line text. -/
structure GrepMatch where
  file : Option String
  lineNumber : Option Nat
  line : String
deriving Repr, DecidableEq

/-- The three result shapes of grep_impl: the default match list, the
per-file counts of count_only, and the file list of files_only. -/
inductive GrepOut where
  | matchList (l : List GrepMatch)
  | counts (l : List (String × Nat))
  | fileList (l : List String)
deriving Repr, DecidableEq

/-- The file system grep_impl runs against: the regular files with their
line contents, and the directories with the regular files their recursive
traversal yields, in traversal order. -/
structure FileSys where
  files : List (String × List String)
  dirs : List (String × List String)

/-- The line contents of a regular file. -/
def FileSys.lookupFile (fs : FileSys) (p : String) : Option (List String) :=
  (fs.files.find? (fun q => decide (q.1 = p))).map (fun q => q.2)

/-- The recursive listing of a directory. -/
def FileSys.lookupDir (fs : FileSys) (p : String) : Option (List String) :=
  (fs.dirs.find? (fun q => decide (q.1 = p))).map (fun q => q.2)

/-- collect_files of grep_impl: a missing path is an error, a regular file
searches itself, a directory is traversed when recursive is set and is an
error otherwise. -/
def collectFiles (fs : FileSys) (path : String) (recursive : Bool) :
    Except GrepErr (List String) :=
  match fs.lookupFile path with
  | some _ => .ok [path]
  | none =>
    match fs.lookupDir path with
    | some listing => if recursive then .ok listing else .error (.isADirectory path)
    | none => .error (.notFound path)

/-- grep_impl, with the std::regex engine abstracted: valid says whether
std::regex accepts a pattern text, and rsearch gives the result of
std::regex_search for a pattern text, the icase flag and a line. The
first component of the result is the ordered trace of file-system events
the call performs; the second is the error or the produced result. The
order of phases follows the code: collect_files runs first, then the
regex is built and validated, and only then are file contents read. -/
def grep_impl (fs : FileSys) (valid : String → Bool)
    (rsearch : String → Bool → String → Bool) (pattern path : String)
    (ignoreCase recursive lineNumbers countOnly invert filesOnly wholeWord : Bool) :
    List FsEvent × Except GrepErr GrepOut :=
  match collectFiles fs path recursive with
  | .error e => ([.access path], .error e)
  | .ok fl =>
    let rp := if wholeWord then "\\b" ++ pattern ++ "\\b" else pattern
    if valid rp = false then ([.access path], .error (.invalidPattern rp))
    else
      let evs := FsEvent.access path :: fl.map FsEvent.readLines
      let linesOf := fun f => (fs.lookupFile f).getD []
      let isMatch := fun (l : String) =>
        if invert then ! rsearch rp ignoreCase l else rsearch rp ignoreCase l
      if countOnly then
        (evs, .ok (.counts (fl.map (fun f => (f, ((linesOf f).filter isMatch).length)))))
      else if filesOnly then
        (evs, .ok (.fileList (fl.filter (fun f => (linesOf f).any isMatch))))
      else
        (evs, .ok (.matchList (fl.flatMap (fun f =>
          (linesOf f).enum.filterMap (fun p =>
            if isMatch p.2 then
              some ⟨if fl.length > 1 then some f else none,
                if lineNumbers then some (p.1 + 1) else none, p.2⟩
            else none)))))

/-- Whether a grep result is an InvalidPattern error. -/
def isInvalidPatternErr : Except GrepErr GrepOut → Bool
  | .error (.invalidPattern _) => true
  | _ => false

/-- C6 counterexample: a call with an invalid pattern and a missing path.
The claim says every call with an invalid pattern fails with
InvalidPattern before any file-system access; the code runs collect_files
first, so the call performs a file-system access and fails with the
NotFound error of the path instead, never reaching the pattern check.
The regex oracle here rejects every pattern, so the pattern of the call
is invalid. -/
theorem grep_missing_path_beats_invalid_pattern :
    grep_impl ⟨[], []⟩ (fun _ => false) (fun _ _ _ => false) "(" "nofile"
        false false false false false false false =
      ([.access "nofile"], .error (.notFound "nofile")) ∧
    isInvalidPatternErr
      (grep_impl ⟨[], []⟩ (fun _ => false) (fun _ _ _ => false) "(" "nofile"
        false false false false false false false).2 = false := by
  constructor
  · rfl
  · rfl

/-- C6 amended: grep_impl validates the pattern after target collection
but before any file contents are read: whenever collect_files succeeds
and std::regex rejects the effective pattern (the given pattern, wrapped
in word-boundary assertions when whole_word is set), the call fails with
a descriptive InvalidPattern error and its only file-system event is the
metadata access of the target path — no readLines event occurs, so no
file content is examined. Errors of target collection, however, precede
pattern validation. -/
theorem grep_invalid_pattern_rejected_before_read (fs : FileSys)
    (valid : String → Bool) (rsearch : String → Bool → String → Bool)
    (pattern path : String)
    (ignoreCase recursive lineNumbers countOnly invert filesOnly wholeWord : Bool)
    (fl : List String)
    (hcollect : collectFiles fs path recursive = .ok fl)
    (hvalid : valid (if wholeWord then "\\b" ++ pattern ++ "\\b" else pattern) = false) :
    grep_impl fs valid rsearch pattern path
        ignoreCase recursive lineNumbers countOnly invert filesOnly wholeWord =
      ([.access path],
        .error (.invalidPattern
          (if wholeWord then "\\b" ++ pattern ++ "\\b" else pattern))) := by
  rw [grep_impl, hcollect]
  simp only [hvalid]
  rfl

/-- Witness for the C6 amended theorem: a file system with one readable
file, a pattern every oracle call rejects. -/
theorem grep_invalid_pattern_rejected_before_read_witness :
    collectFiles ⟨[("f.txt", ["hello"])], []⟩ "f.txt" false = .ok ["f.txt"] ∧
      grep_impl ⟨[("f.txt", ["hello"])], []⟩ (fun _ => false) (fun _ _ _ => false)
        "(" "f.txt" false false false false false false false =
        ([.access "f.txt"], .error (.invalidPattern "(")) :=
  ⟨by rfl,
    grep_invalid_pattern_rejected_before_read ⟨[("f.txt", ["hello"])], []⟩
      (fun _ => false) (fun _ _ _ => false) "(" "f.txt"
      false false false false false false false ["f.txt"] (by rfl) (by rfl)⟩

end Shellfast
